import Mathlib

/-!
Verification model of `src/layer_analytics_demo.py` ("Raster Distribution
Analysis by Country").

The core pipeline (lines 52-115 of the source) is embedded shallowly:

* raster samples are rationals (`ℚ`); the nodata sentinel turns a cell into
  `none`, mirroring `band = np.where(band == nodata, np.nan, band)` where a
  `NaN` cell fails every comparison and is dropped from the flattened array;
* the affine transform is the 6-coefficient rasterio `Affine`;
* pixel polygons are the shapely `box(...)` rings built on source lines 82-86;
* reprojection (`to_crs`) is parametrised by an abstract per-point map
  (the PROJ library is an external collaborator); it fails with the
  geopandas naive-geometry error when the source CRS is absent;
* the spatial join is parametrised by an abstract `intersects` test on rings
  (the GEOS predicate is an external collaborator); the join itself —
  one row per intersecting (pixel, country) pair, left order then right
  order, no deduplication — is modelled exactly;
* `groupby("ADMIN")` aggregates over sorted distinct admin names
  (pandas sorts group keys ascending by default);
* `merge(..., on="ADMIN", how="left")` keeps left order and emits one row
  per matching right row (`none` stands for the NaN of an unmatched key);
* `.round(n)` is numpy's round-half-to-even on `n` decimal digits.

Admin names are an abstract linearly ordered type `Name` (the source only
compares and sorts them).
-/

namespace LayerAnalytics

/-- A coordinate pair, as used by shapely geometries. -/
abbrev Point : Type := ℚ × ℚ

/-- A polygon ring: the list of its vertices. -/
abbrev Ring : Type := List Point

/-- A coordinate reference system identifier (e.g. `6933` for EPSG:6933). -/
abbrev CRS : Type := ℕ

/-- The six coefficients of a rasterio affine transform:
`x = a·col + b·row + c`, `y = d·col + e·row + f`.
`transform[0] = a` is the x-scale and `transform[4] = e` is the y-scale. -/
structure Affine where
  a : ℚ
  b : ℚ
  c : ℚ
  d : ℚ
  e : ℚ
  f : ℚ
deriving DecidableEq

/-- `rasterio.transform.xy(transform, row, col)` with the default
center offset: the transform applied to `(col + 1/2, row + 1/2)`. -/
def Affine.xy (t : Affine) (row col : ℕ) : Point :=
  (t.a * ((col : ℚ) + 1/2) + t.b * ((row : ℚ) + 1/2) + t.c,
   t.d * ((col : ℚ) + 1/2) + t.e * ((row : ℚ) + 1/2) + t.f)

/-- The raster as read on source lines 52-56: one band as a 2-D grid,
the affine transform, an optional CRS and an optional nodata sentinel. -/
structure Raster where
  band : List (List ℚ)
  transform : Affine
  crs : Option CRS
  nodata : Option ℚ
deriving DecidableEq

/-- One processed cell of `band = np.where(band == nodata, np.nan, band)`
(source line 57): the sentinel value becomes `none` (NaN), everything
else is kept.  With no declared sentinel nothing is masked. -/
def maskVal (nodata : Option ℚ) (v : ℚ) : Option ℚ :=
  match nodata with
  | none => some v
  | some nd => if v = nd then none else some v

/-- The whole masked band of source line 57. -/
def maskBand (band : List (List ℚ)) (nodata : Option ℚ) : List (List (Option ℚ)) :=
  band.map (List.map (maskVal nodata))

/-- `band_flat = band[~np.isnan(band)]` (source line 58): the flattened
band with the NaN (masked) cells removed, in row-major order. -/
def bandFlat (masked : List (List (Option ℚ))) : List ℚ :=
  masked.flatten.filterMap id

/-- One cell of `match_mask = (band >= value_min) & (band <= value_max)`
(source line 69).  A NaN (masked) cell fails both comparisons. -/
def inRange (vmin vmax : ℚ) : Option ℚ → Bool
  | none => false
  | some v => decide (vmin ≤ v) && decide (v ≤ vmax)

/-- Column scan of one band row for `np.where(match_mask)`: emits `(r, c)`
for every in-range cell, `c` counting up from `c0`. -/
def matchRow (vmin vmax : ℚ) (r : ℕ) : ℕ → List (Option ℚ) → List (ℕ × ℕ)
  | _, [] => []
  | c, v :: vs =>
      (if inRange vmin vmax v then [(r, c)] else []) ++ matchRow vmin vmax r (c + 1) vs

/-- Row scan of the masked band for `np.where(match_mask)`, `r` counting up
from `r0`: row-major order, as numpy returns it. -/
def matchGrid (vmin vmax : ℚ) : ℕ → List (List (Option ℚ)) → List (ℕ × ℕ)
  | _, [] => []
  | r, row :: rest => matchRow vmin vmax r 0 row ++ matchGrid vmin vmax (r + 1) rest

/-- `rows, cols = np.where(match_mask)` (source line 76) on the masked band:
the row-major list of matched cell indices. -/
def matchedIndices (band : List (List ℚ)) (nodata : Option ℚ) (vmin vmax : ℚ) :
    List (ℕ × ℕ) :=
  matchGrid vmin vmax 0 (maskBand band nodata)

/-- The raw value of cell `(r, c)` of the grid, when it exists. -/
def cellValue (band : List (List ℚ)) (r c : ℕ) : Option ℚ :=
  (band.get? r).bind (fun row => row.get? c)

/-- `shapely.geometry.box(x1, y1, x2, y2)`: the rectangle ring with the
vertex order shapely uses (counter-clockwise from `(x2, y1)`). -/
def box (x1 y1 x2 y2 : ℚ) : Ring :=
  [(x2, y1), (x2, y2), (x1, y2), (x1, y1)]

/-- Source lines 80-86: the square polygon of one matched cell, a box of
width `pixel_width = transform[0]` and height `pixel_height = -transform[4]`
centred on the cell's `xy` coordinate. -/
def pixelPolygon (t : Affine) (rc : ℕ × ℕ) : Ring :=
  let w := t.a
  let h := -t.e
  let p := t.xy rc.1 rc.2
  box (p.1 - w / 2) (p.2 - h / 2) (p.1 + w / 2) (p.2 + h / 2)

/-- Smallest x coordinate of a ring (`0` for the empty ring). -/
def ringXmin (g : Ring) : ℚ :=
  match g.map Prod.fst with
  | [] => 0
  | x :: xs => xs.foldl min x

/-- Largest x coordinate of a ring (`0` for the empty ring). -/
def ringXmax (g : Ring) : ℚ :=
  match g.map Prod.fst with
  | [] => 0
  | x :: xs => xs.foldl max x

/-- Smallest y coordinate of a ring (`0` for the empty ring). -/
def ringYmin (g : Ring) : ℚ :=
  match g.map Prod.snd with
  | [] => 0
  | y :: ys => ys.foldl min y

/-- Largest y coordinate of a ring (`0` for the empty ring). -/
def ringYmax (g : Ring) : ℚ :=
  match g.map Prod.snd with
  | [] => 0
  | y :: ys => ys.foldl max y

/-- Geometric x-extent (width) of a ring's point set. -/
def xExtent (g : Ring) : ℚ := ringXmax g - ringXmin g

/-- Geometric y-extent (height) of a ring's point set. -/
def yExtent (g : Ring) : ℚ := ringYmax g - ringYmin g

/-- Centre of a ring's bounding box. -/
def ringCenter (g : Ring) : Point :=
  ((ringXmin g + ringXmax g) / 2, (ringYmin g + ringYmax g) / 2)

/-- Twice the signed shoelace area of a ring. -/
def shoelace (g : Ring) : ℚ :=
  ((g.zip (g.rotate 1)).map (fun pq => pq.1.1 * pq.2.2 - pq.2.1 * pq.1.2)).sum

/-- GEOS polygon area, as geopandas `.area` reports it: the absolute
shoelace area of the ring. -/
def ringArea (g : Ring) : ℚ := |shoelace g| / 2

/-- `label[i:i+max_chars]` slices of `clean_label` (source lines 39-40),
over the character list.  `k = 0` is Python's `range` step-zero error and
yields no chunks here; the source only uses the default `max_chars = 12`. -/
def chunkList (k : ℕ) (l : List Char) : List (List Char) :=
  if h : l = [] ∨ k = 0 then [] else l.take k :: chunkList k (l.drop k)
termination_by l.length
decreasing_by
  simp only [List.length_drop]
  push_neg at h
  have hl : 0 < l.length := List.length_pos.mpr h.1
  omega

/-- `clean_label` (source lines 39-40): the label cut into `max_chars`-sized
slices joined with newlines. -/
def clean_label (label : String) (max_chars : ℕ) : String :=
  String.intercalate "\n" ((chunkList max_chars label.toList).map String.mk)

/-- One row of the country boundary set: a polygon ring with its `ADMIN`
(admin name) attribute. -/
structure CountryRow (Name : Type) where
  admin : Name
  geometry : Ring
deriving DecidableEq

/-- The boundary set as read on source line 50: its rows and its CRS. -/
structure WorldSet (Name : Type) where
  rows : List (CountryRow Name)
  crs : Option CRS
deriving DecidableEq

/-- The per-point reprojection supplied by the external PROJ library:
source CRS, target CRS, point in, point out. -/
abbrev PointMap : Type := CRS → CRS → Point → Point

/-- The error geopandas `to_crs` raises on a geometry set without a CRS. -/
def naiveCrsError : String :=
  "Cannot transform naive geometries. Please set a crs on the object first."

/-- `EPSG:6933`, the `equal_area_crs` of source line 90. -/
def equal_area_crs : CRS := 6933

/-- Reproject one ring by mapping every vertex. -/
def projRing (pm : PointMap) (src tgt : CRS) (g : Ring) : Ring :=
  g.map (pm src tgt)

/-- `pixels.to_crs(...)` (source line 91): reprojects every ring, or fails
with the naive-geometry error when no source CRS is declared. -/
def geoms_to_crs (pm : PointMap) (src : Option CRS) (tgt : CRS) (gs : List Ring) :
    Except String (List Ring) :=
  match src with
  | none => Except.error naiveCrsError
  | some s => Except.ok (gs.map (projRing pm s tgt))

/-- `world.to_crs(...)` (source line 92): reprojects every country polygon,
preserving the `ADMIN` attribute, or fails without a source CRS. -/
def world_to_crs {Name : Type} (pm : PointMap) (w : WorldSet Name) (tgt : CRS) :
    Except String (List (CountryRow Name)) :=
  match w.crs with
  | none => Except.error naiveCrsError
  | some s => Except.ok (w.rows.map (fun r => ⟨r.admin, projRing pm s tgt r.geometry⟩))

/-- `pixels["pixel_area_km2"] = pixels.geometry.area / 1e6` (source line 95):
each projected pixel ring paired with its area in km². -/
def pixelAreaCol (gs : List Ring) : List (Ring × ℚ) :=
  gs.map (fun g => (g, ringArea g / 1000000))

/-- One output row of `gpd.sjoin(pixels, world_proj, ...)` (source line 98):
the left (pixel) row's positional index and attributes together with the
matched right (country) row's positional index and `ADMIN` attribute. -/
structure JoinedRow (Name : Type) where
  pixIdx : ℕ
  pixel_area_km2 : ℚ
  worldIdx : ℕ
  admin : Name
deriving DecidableEq

/-- Inner loop of the spatial join: one pixel (index `i`, ring `g`, area
`a`) against the countries, whose indices count up from `j`. -/
def sjoinWorld {Name : Type} (its : Ring → Ring → Bool) (g : Ring) (a : ℚ) (i : ℕ) :
    ℕ → List (CountryRow Name) → List (JoinedRow Name)
  | _, [] => []
  | j, w :: ws =>
      (if its g w.geometry then [⟨i, a, j, w.admin⟩] else []) ++
        sjoinWorld its g a i (j + 1) ws

/-- Outer loop of the spatial join: pixels in order, indices counting up
from `i`. -/
def sjoinAux {Name : Type} (its : Ring → Ring → Bool) :
    ℕ → List (Ring × ℚ) → List (CountryRow Name) → List (JoinedRow Name)
  | _, [], _ => []
  | i, p :: ps, ws => sjoinWorld its p.1 p.2 i 0 ws ++ sjoinAux its (i + 1) ps ws

/-- `gpd.sjoin(pixels, world_proj, how="inner", predicate="intersects")`
(source line 98): one independent row for every (pixel, country) pair the
`intersects` predicate accepts, pixels in left order, countries in right
order, no deduplication.  The GEOS predicate itself is the parameter
`its`. -/
def sjoin {Name : Type} (its : Ring → Ring → Bool) (ps : List (Ring × ℚ))
    (ws : List (CountryRow Name)) : List (JoinedRow Name) :=
  sjoinAux its 0 ps ws

/-- The joined rows of one admin name (one `groupby("ADMIN")` group). -/
def rowsFor {Name : Type} [DecidableEq Name] (J : List (JoinedRow Name)) (n : Name) :
    List (JoinedRow Name) :=
  J.filter (fun r => decide (r.admin = n))

/-- Ascending insertion used to model pandas' sorted group keys. -/
def insortKey {Name : Type} [LinearOrder Name] (n : Name) :
    List Name → List Name
  | [] => [n]
  | m :: ms => if n ≤ m then n :: m :: ms else m :: insortKey n ms

/-- Insertion sort of the group keys (pandas sorts group keys ascending). -/
def sortKeys {Name : Type} [LinearOrder Name] (l : List Name) : List Name :=
  l.foldr insortKey []

/-- One row of the `summary` frame right after the `groupby` on source
lines 101-104: admin name, row count and summed pixel area. -/
structure GroupedRow (Name : Type) where
  admin : Name
  matched_pixels : ℕ
  area_km2 : ℚ
deriving DecidableEq

/-- `joined.groupby("ADMIN").agg(matched_pixels=("geometry", "count"),
area_km2=("pixel_area_km2", "sum")).reset_index()` (source lines 101-104):
one row per distinct admin name, keys sorted ascending, counting the
group's rows and summing their pixel areas. -/
def groupby_admin {Name : Type} [LinearOrder Name] (J : List (JoinedRow Name)) :
    List (GroupedRow Name) :=
  (sortKeys ((J.map (fun r => r.admin)).dedup)).map
    (fun n => ⟨n, (rowsFor J n).length, ((rowsFor J n).map (fun r => r.pixel_area_km2)).sum⟩)

/-- `world_proj["country_area_km2"] = world_proj.geometry.area / 1e6`
(source line 107): the projected boundary rows with the added country-area
column.  The column is written on the projected copy, never on the
original boundary set. -/
def addCountryAreaCol {Name : Type} (ws : List (CountryRow Name)) :
    List (CountryRow Name × ℚ) :=
  ws.map (fun w => (w, ringArea w.geometry / 1000000))

/-- One row of the final `summary` frame (source lines 108-110).  The
`country_area_km2` and `percent_covered` columns are `Option`s: `none`
stands for the NaN a left merge writes on an unmatched key. -/
structure SummaryRow (Name : Type) where
  admin : Name
  matched_pixels : ℕ
  area_km2 : ℚ
  country_area_km2 : Option ℚ
  percent_covered : Option ℚ
deriving DecidableEq

/-- `summary.merge(world_proj[["ADMIN", "country_area_km2"]], on="ADMIN",
how="left")` (source line 108): left rows in order; each left row is
repeated once per right row with the same admin name (right order), or
kept once with a NaN country area when no right row matches. -/
def mergeCountryArea {Name : Type} [DecidableEq Name]
    (grouped : List (GroupedRow Name)) (wsArea : List (CountryRow Name × ℚ)) :
    List (SummaryRow Name) :=
  grouped.flatMap (fun g =>
    match wsArea.filter (fun w => decide (w.1.admin = g.admin)) with
    | [] => [⟨g.admin, g.matched_pixels, g.area_km2, none, none⟩]
    | ms => ms.map (fun w => ⟨g.admin, g.matched_pixels, g.area_km2, some w.2, none⟩))

/-- numpy's round-half-to-even of a rational to an integer. -/
def roundHalfEven (q : ℚ) : ℤ :=
  if Int.fract q < 1/2 then ⌊q⌋
  else if 1/2 < Int.fract q then ⌊q⌋ + 1
  else if ⌊q⌋ % 2 = 0 then ⌊q⌋ else ⌊q⌋ + 1

/-- pandas `.round(n)`: numpy round-half-to-even at `n` decimal digits. -/
def roundTo (n : ℕ) (q : ℚ) : ℚ :=
  (roundHalfEven (q * 10 ^ n) : ℚ) / 10 ^ n

/-- Source lines 109-110, in order: `percent_covered` is computed from the
still-unrounded `area_km2` column, and only afterwards is `area_km2`
overwritten by its 2-digit rounding. -/
def addDerivedCols {Name : Type} (rows : List (SummaryRow Name)) :
    List (SummaryRow Name) :=
  rows.map (fun r =>
    { r with
      percent_covered := r.country_area_km2.map (fun ca => roundTo 4 (100 * r.area_km2 / ca))
      area_km2 := roundTo 2 r.area_km2 })

/-- Outcome of one run past the histogram: the zero-match warning branch
(source lines 73-74) or the populated summary table. -/
inductive PipeResult (Name : Type) where
  | empty : PipeResult Name
  | table : List (SummaryRow Name) → PipeResult Name
deriving DecidableEq

deriving instance DecidableEq for Except

/-- What one run of the main block produces: the flattened histogram
array (always computed, source lines 58-67) and then either the summary
table, the empty signal, or the reprojection error. -/
structure RunOutput (Name : Type) where
  band_flat : List ℚ
  result : Except String (PipeResult Name)
deriving DecidableEq

/-- The main processing block, source lines 52-115: mask nodata, flatten
for the histogram, match the value range, and — when any cell matched —
build square pixel polygons, reproject both geometry sets into
`EPSG:6933`, compute pixel areas, spatially join, group by admin name,
merge the country areas and add the derived columns. -/
def runPipeline {Name : Type} [LinearOrder Name] (pm : PointMap)
    (its : Ring → Ring → Bool) (raster : Raster) (world : WorldSet Name)
    (value_min value_max : ℚ) : RunOutput Name :=
  let masked := maskBand raster.band raster.nodata
  let flat := bandFlat masked
  let matched := matchGrid value_min value_max 0 masked
  let res : Except String (PipeResult Name) :=
    if matched.length = 0 then Except.ok PipeResult.empty
    else
      (geoms_to_crs pm raster.crs equal_area_crs
          (matched.map (pixelPolygon raster.transform))).bind (fun pixelsProj =>
        (world_to_crs pm world equal_area_crs).map (fun worldProj =>
          let joined := sjoin its (pixelAreaCol pixelsProj) worldProj
          let grouped := groupby_admin joined
          let summary := mergeCountryArea grouped (addCountryAreaCol worldProj)
          PipeResult.table (addDerivedCols summary)))
  ⟨flat, res⟩

/-- The in-memory session inputs one run reads: the raster as decoded and
the boundary set as fetched.  In the source these are the objects bound to
`band`/`transform`/`crs`/`nodata` and `world`. -/
structure SessionState (Name : Type) where
  raster : Raster
  world : WorldSet Name
deriving DecidableEq

/-- One run as a state transformer over the session inputs.  Every derived
object of the source is a fresh allocation (`np.where` on line 57 returns a
new array, `to_crs` on lines 91-92 returns copies, and the column writes on
lines 95 and 107 target those copies), so the run hands back the raster and
boundary set it was given. -/
def runPipelineSt {Name : Type} [LinearOrder Name] (pm : PointMap)
    (its : Ring → Ring → Bool) (st : SessionState Name)
    (value_min value_max : ℚ) : RunOutput Name × SessionState Name :=
  (runPipeline pm its st.raster st.world value_min value_max,
   ⟨st.raster, st.world⟩)

/-- `rows, cols = np.where(match_mask)` applied to the raster's own band:
the matched cell indices of one run. -/
def matchedIndices' (raster : Raster) (vmin vmax : ℚ) : List (ℕ × ℕ) :=
  matchedIndices raster.band raster.nodata vmin vmax

/-- The projected matched-pixel rings of one run, assuming the raster
declared the source CRS `s`. -/
def pixelsProjOf (pm : PointMap) (s : CRS) (raster : Raster) (vmin vmax : ℚ) :
    List Ring :=
  ((matchedIndices' raster vmin vmax).map (pixelPolygon raster.transform)).map
    (projRing pm s equal_area_crs)

/-- The projected boundary rows of one run, assuming the boundary set
declared the source CRS `sw`. -/
def worldProjOf {Name : Type} (pm : PointMap) (sw : CRS) (world : WorldSet Name) :
    List (CountryRow Name) :=
  world.rows.map (fun r => ⟨r.admin, projRing pm sw equal_area_crs r.geometry⟩)

/-- The `joined` frame of one run (source line 98), spelled out stage by
stage. -/
def joinedOf {Name : Type} (pm : PointMap) (its : Ring → Ring → Bool) (s sw : CRS)
    (raster : Raster) (world : WorldSet Name) (vmin vmax : ℚ) :
    List (JoinedRow Name) :=
  sjoin its (pixelAreaCol (pixelsProjOf pm s raster vmin vmax)) (worldProjOf pm sw world)

/-- The final `summary` rows of one run (source lines 101-110), spelled out
stage by stage. -/
def tableRowsOf {Name : Type} [LinearOrder Name] (pm : PointMap)
    (its : Ring → Ring → Bool) (s sw : CRS) (raster : Raster)
    (world : WorldSet Name) (vmin vmax : ℚ) : List (SummaryRow Name) :=
  addDerivedCols
    (mergeCountryArea (groupby_admin (joinedOf pm its s sw raster world vmin vmax))
      (addCountryAreaCol (worldProjOf pm sw world)))

/-- How many joined rows pair pixel `i` with country `j`. -/
def pairCount {Name : Type} (J : List (JoinedRow Name)) (i j : ℕ) : ℕ :=
  J.countP (fun r => decide (r.pixIdx = i) && decide (r.worldIdx = j))

/-- The `ADMIN` column of the summary table of a run, when one was
produced. -/
def summaryAdmins {Name : Type} (o : RunOutput Name) : List Name :=
  match o.result with
  | Except.ok (PipeResult.table rows) => rows.map (fun r => r.admin)
  | _ => []

/-- The identity point map: a stand-in projection for concrete runs. -/
def pmId : PointMap := fun _ _ p => p

/-- Closed-interval bounding-box overlap.  For the axis-aligned rectangles
of the concrete runs below this is exactly the GEOS `intersects` predicate
(touching counts). -/
def bboxIntersects (g h : Ring) : Bool :=
  decide (ringXmin g ≤ ringXmax h) && decide (ringXmin h ≤ ringXmax g) &&
    decide (ringYmin g ≤ ringYmax h) && decide (ringYmin h ≤ ringYmax g)

/-- A north-up unit transform: x-scale `1`, y-scale `-1`, origin `(0,0)`. -/
def tUnit : Affine := ⟨1, 0, 0, 0, -1, 0⟩

/-- A transform with negative x-scale and positive y-scale. -/
def tNegX : Affine := ⟨-1, 0, 0, 0, 1, 0⟩

/-- A 1×1 raster whose single cell value `50` lies in `[0, 100]`. -/
def rasterOne : Raster := ⟨[[50]], tUnit, some 4326, none⟩

/-- Country `3`: the square `[0,1] × [-1,0]`, the cell of `rasterOne`. -/
def countryA : CountryRow ℕ := ⟨3, box 0 (-1) 1 0⟩

/-- Country `5`: the adjacent square `[1,2] × [-1,0]`, sharing the border
`x = 1` with `countryA`. -/
def countryB : CountryRow ℕ := ⟨5, box 1 (-1) 2 0⟩

/-- A boundary set of the two adjacent countries. -/
def worldAB : WorldSet ℕ := ⟨[countryA, countryB], some 4326⟩

/-- A boundary set whose two rows carry the same admin name `7`. -/
def worldDup : WorldSet ℕ := ⟨[⟨7, box 0 (-1) 1 0⟩, ⟨7, box 0 (-1) 1 0⟩], some 4326⟩

/-- A boundary set with no declared CRS. -/
def worldNoCrs : WorldSet ℕ := ⟨[⟨7, box 0 (-1) 1 0⟩], none⟩

/-- The matched-pixel square of `rasterOne` paired with area `1`, and the
two-country boundary list, as direct inputs to `sjoin`. -/
def psBorder : List (Ring × ℚ) := [(box 0 (-1) 1 0, 1)]

/-- The two adjacent countries as a plain row list. -/
def wsBorder : List (CountryRow ℕ) := [countryA, countryB]

/-! ### Helper lemmas -/

theorem chunkList_eq_nil_iff (k : ℕ) (l : List Char) :
    chunkList k l = [] ↔ l = [] ∨ k = 0 := by
  constructor
  · intro h
    by_contra hc
    rw [chunkList] at h
    rw [dif_neg hc] at h
    exact List.cons_ne_nil _ _ h
  · intro h
    rw [chunkList]
    simp [h]

theorem chunkList_flatten (k : ℕ) (hk : 0 < k) (l : List Char) :
    (chunkList k l).flatten = l := by
  have key : ∀ (n : ℕ) (l : List Char), l.length = n → (chunkList k l).flatten = l := by
    intro n
    induction n using Nat.strong_induction_on with
    | _ n ih =>
      intro l hn
      rw [chunkList]
      split
      next h =>
        rcases h with h | h
        · simp [h]
        · omega
      next h =>
        push_neg at h
        have hl : 0 < l.length := List.length_pos.mpr h.1
        have hd : (l.drop k).length < n := by
          rw [← hn]
          simp only [List.length_drop]
          omega
        rw [List.flatten_cons, ih _ hd (l.drop k) rfl, List.take_append_drop]
  exact key l.length l rfl

theorem chunkList_length_le (k : ℕ) (l : List Char) :
    ∀ c ∈ chunkList k l, c.length ≤ k := by
  have key : ∀ (n : ℕ) (l : List Char), l.length = n → ∀ c ∈ chunkList k l, c.length ≤ k := by
    intro n
    induction n using Nat.strong_induction_on with
    | _ n ih =>
      intro l hn
      rw [chunkList]
      split
      next => simp
      next h =>
        push_neg at h
        have hl : 0 < l.length := List.length_pos.mpr h.1
        have hd : (l.drop k).length < n := by
          rw [← hn]
          simp only [List.length_drop]
          omega
        intro c hc
        rcases List.mem_cons.mp hc with rfl | hc
        · simpa using List.length_take_le k l
        · exact ih _ hd (l.drop k) rfl c hc
  exact key l.length l rfl

theorem chunkList_dropLast_length (k : ℕ) (l : List Char) :
    ∀ c ∈ (chunkList k l).dropLast, c.length = k := by
  have key : ∀ (n : ℕ) (l : List Char), l.length = n →
      ∀ c ∈ (chunkList k l).dropLast, c.length = k := by
    intro n
    induction n using Nat.strong_induction_on with
    | _ n ih =>
      intro l hn
      rw [chunkList]
      split
      next => simp
      next h =>
        push_neg at h
        have hl : 0 < l.length := List.length_pos.mpr h.1
        have hd : (l.drop k).length < n := by
          rw [← hn]
          simp only [List.length_drop]
          omega
        intro c hc
        by_cases hrest : chunkList k (l.drop k) = []
        · rw [hrest] at hc
          simp at hc
        · rw [List.dropLast_cons_of_ne_nil hrest] at hc
          rcases List.mem_cons.mp hc with rfl | hc
          · have hne : l.drop k ≠ [] := by
              intro hnil
              exact hrest ((chunkList_eq_nil_iff k (l.drop k)).mpr (Or.inl hnil))
            have hlen : k < l.length := by
              by_contra hle
              push_neg at hle
              exact hne (List.drop_eq_nil_of_le hle)
            simp [List.length_take, Nat.min_eq_left (Nat.le_of_lt hlen)]
          · exact ih _ hd (l.drop k) rfl c hc
  exact key l.length l rfl

theorem box_stats (x1 y1 x2 y2 : ℚ) :
    ringXmin (box x1 y1 x2 y2) = min x1 x2 ∧ ringXmax (box x1 y1 x2 y2) = max x1 x2 ∧
    ringYmin (box x1 y1 x2 y2) = min y1 y2 ∧ ringYmax (box x1 y1 x2 y2) = max y1 y2 := by
  refine ⟨?_, ?_, ?_, ?_⟩ <;>
    simp [ringXmin, ringXmax, ringYmin, ringYmax, box, min_self, max_self,
      min_assoc, max_assoc, min_comm, max_comm, min_left_comm, max_left_comm]

theorem box_centered (X Y w h : ℚ) :
    ringCenter (box (X - w / 2) (Y - h / 2) (X + w / 2) (Y + h / 2)) = (X, Y) ∧
    xExtent (box (X - w / 2) (Y - h / 2) (X + w / 2) (Y + h / 2)) = |w| ∧
    yExtent (box (X - w / 2) (Y - h / 2) (X + w / 2) (Y + h / 2)) = |h| := by
  obtain ⟨h1, h2, h3, h4⟩ := box_stats (X - w / 2) (Y - h / 2) (X + w / 2) (Y + h / 2)
  refine ⟨?_, ?_, ?_⟩
  · rw [ringCenter, h1, h2, h3, h4, min_add_max, min_add_max]
    rw [Prod.mk.injEq]
    constructor <;> ring
  · rw [xExtent, h2, h1, max_sub_min_eq_abs]
    have hx : (X + w / 2) - (X - w / 2) = w := by ring
    rw [hx]
  · rw [yExtent, h4, h3, max_sub_min_eq_abs]
    have hy : (Y + h / 2) - (Y - h / 2) = h := by ring
    rw [hy]

theorem inRange_false_of_gt {vmin vmax : ℚ} (h : vmax < vmin) (o : Option ℚ) :
    inRange vmin vmax o = false := by
  cases o with
  | none => rfl
  | some v =>
      by_cases h1 : vmin ≤ v
      · have h2 : ¬ v ≤ vmax := fun h2 => absurd (le_trans h1 h2) (not_le.mpr h)
        simp [inRange, h2]
      · simp [inRange, h1]

theorem matchRow_nil_of_gt {vmin vmax : ℚ} (h : vmax < vmin) (r : ℕ) :
    ∀ (c0 : ℕ) (l : List (Option ℚ)), matchRow vmin vmax r c0 l = [] := by
  intro c0 l
  induction l generalizing c0 with
  | nil => rfl
  | cons v vs ih => simp [matchRow, inRange_false_of_gt h, ih]

theorem matchGrid_nil_of_gt {vmin vmax : ℚ} (h : vmax < vmin) :
    ∀ (r0 : ℕ) (b : List (List (Option ℚ))), matchGrid vmin vmax r0 b = [] := by
  intro r0 b
  induction b generalizing r0 with
  | nil => rfl
  | cons row rest ih => simp [matchGrid, matchRow_nil_of_gt h, ih]

theorem mem_matchRow {vmin vmax : ℚ} {r : ℕ} :
    ∀ (c0 : ℕ) (l : List (Option ℚ)) (p : ℕ × ℕ), p ∈ matchRow vmin vmax r c0 l →
      p.1 = r ∧ c0 ≤ p.2 ∧
        ∃ v, l.get? (p.2 - c0) = some v ∧ inRange vmin vmax v = true := by
  intro c0 l
  induction l generalizing c0 with
  | nil => intro p hp; simp [matchRow] at hp
  | cons v vs ih =>
      intro p hp
      rw [matchRow, List.mem_append] at hp
      rcases hp with hp | hp
      · by_cases hv : inRange vmin vmax v = true
        · rw [if_pos hv] at hp
          rcases List.mem_singleton.mp hp with rfl
          exact ⟨rfl, le_refl _, v, by simp, hv⟩
        · rw [if_neg hv] at hp
          simp at hp
      · obtain ⟨h1, h2, w, hw, hir⟩ := ih (c0 + 1) p hp
        refine ⟨h1, by omega, w, ?_, hir⟩
        have hs : p.2 - c0 = (p.2 - (c0 + 1)) + 1 := by omega
        rw [hs]
        simpa using hw

theorem mem_matchGrid {vmin vmax : ℚ} :
    ∀ (r0 : ℕ) (b : List (List (Option ℚ))) (p : ℕ × ℕ), p ∈ matchGrid vmin vmax r0 b →
      r0 ≤ p.1 ∧ ∃ row, b.get? (p.1 - r0) = some row ∧
        ∃ v, row.get? p.2 = some v ∧ inRange vmin vmax v = true := by
  intro r0 b
  induction b generalizing r0 with
  | nil => intro p hp; simp [matchGrid] at hp
  | cons row rest ih =>
      intro p hp
      rw [matchGrid, List.mem_append] at hp
      rcases hp with hp | hp
      · obtain ⟨h1, _, v, hv, hir⟩ := mem_matchRow 0 row p hp
        refine ⟨le_of_eq h1.symm, row, ?_, v, by simpa using hv, hir⟩
        have : p.1 - r0 = 0 := by omega
        rw [this]
        rfl
      · obtain ⟨h1, row', hrow', v, hv, hir⟩ := ih (r0 + 1) p hp
        refine ⟨by omega, row', ?_, v, hv, hir⟩
        have hs : p.1 - r0 = (p.1 - (r0 + 1)) + 1 := by omega
        rw [hs]
        simpa using hrow'

theorem filterMap_maskVal (nd : ℚ) (l : List ℚ) :
    l.filterMap (maskVal (some nd)) = l.filter (fun v => !(decide (v = nd))) := by
  induction l with
  | nil => rfl
  | cons v vs ih =>
      by_cases hv : v = nd
      · simp [List.filterMap_cons, List.filter_cons, maskVal, hv, ih]
      · simp [List.filterMap_cons, List.filter_cons, maskVal, hv, ih]

/-! ### Claim theorems -/

/-- C10: `clean_label` splits the label into consecutive chunks of at most
12 characters joined by newlines; concatenating the chunks restores the
original character sequence, every chunk except possibly the last has
length exactly 12, and no chunk exceeds 12 characters. -/
theorem clean_label_chunks (label : String) :
    clean_label label 12 =
      String.intercalate "\n" ((chunkList 12 label.toList).map String.mk) ∧
    (chunkList 12 label.toList).flatten = label.toList ∧
    (∀ c ∈ (chunkList 12 label.toList).dropLast, c.length = 12) ∧
    (∀ c ∈ chunkList 12 label.toList, c.length ≤ 12) :=
  ⟨rfl, chunkList_flatten 12 (by norm_num) label.toList,
   chunkList_dropLast_length 12 label.toList, chunkList_length_le 12 label.toList⟩

/-- C5 counterexample: for the transform `tNegX` with x-scale `-1`, the
emitted rectangle's width (geometric x-extent) is `1`, not the x-scale
`-1`, so the claim's "width equals the transform's x-scale for every
affine transform" fails. -/
theorem pixel_box_width_cex : xExtent (pixelPolygon tNegX (0, 0)) ≠ tNegX.a := by
  have hb := (box_centered (tNegX.xy 0 0).1 (tNegX.xy 0 0).2 tNegX.a (-tNegX.e)).2.1
  rw [show xExtent (pixelPolygon tNegX (0, 0)) = |tNegX.a| from hb]
  norm_num [tNegX]

/-- C5 (amended): in square-pixel mode every emitted geometry is an
axis-aligned rectangle centred at the cell's transformed `(x, y)` whose
width is the absolute value of the x-scale and whose height is the
absolute value of the y-scale, for every affine transform (including
positive y-scale, where `pixel_height = -transform[4]` is negative but the
box's point set still has extent `|e|`). -/
theorem pixel_box_geometry (t : Affine) (rc : ℕ × ℕ) :
    ringCenter (pixelPolygon t rc) = t.xy rc.1 rc.2 ∧
    xExtent (pixelPolygon t rc) = |t.a| ∧
    yExtent (pixelPolygon t rc) = |t.e| := by
  have hb := box_centered (t.xy rc.1 rc.2).1 (t.xy rc.1 rc.2).2 t.a (-t.e)
  refine ⟨hb.1, hb.2.1, ?_⟩
  rw [show yExtent (pixelPolygon t rc) = |(-t.e)| from hb.2.2, abs_neg]

/-- C3: with a declared nodata sentinel, a cell holding the sentinel is
never a matched pixel for any value range, and the flattened histogram
array is exactly the row-major band with the sentinel cells removed — all
non-sentinel cells appear in it, in range or not. -/
theorem nodata_excluded (band : List (List ℚ)) (nd vmin vmax : ℚ) :
    (∀ r c, cellValue band r c = some nd →
      (r, c) ∉ matchedIndices band (some nd) vmin vmax) ∧
    bandFlat (maskBand band (some nd)) =
      band.flatten.filter (fun v => !(decide (v = nd))) := by
  constructor
  · intro r c hcell hmem
    obtain ⟨-, row, hrow, v, hv, hir⟩ := mem_matchGrid 0 _ _ hmem
    simp only [Nat.sub_zero] at hrow
    obtain ⟨braw, hbraw, hcold⟩ : ∃ braw, band.get? r = some braw ∧ braw.get? c = some nd := by
      rcases hb : band.get? r with _ | braw
      · rw [cellValue, hb] at hcell; simp at hcell
      · rw [cellValue, hb] at hcell; exact ⟨braw, rfl, hcell⟩
    rw [maskBand, List.get?_map, hbraw] at hrow
    have hroweq : row = braw.map (maskVal (some nd)) := by
      simpa using hrow.symm
    rw [hroweq, List.get?_map, hcold] at hv
    have hveq : v = maskVal (some nd) nd := by simpa using hv.symm
    rw [hveq] at hir
    simp [maskVal, inRange] at hir
  · rw [bandFlat, maskBand, ← List.map_flatten, List.filterMap_map]
    rw [show (id ∘ maskVal (some nd)) = maskVal (some nd) from rfl]
    exact filterMap_maskVal nd band.flatten

/-- C3 witness: in the band `[[5, 3]]` with sentinel `5`, the sentinel
cell `(0,0)` is not matched by the range `[0, 10]` and the histogram array
keeps exactly the non-sentinel cells. -/
theorem nodata_excluded_witness :
    ((0, 0) ∉ matchedIndices [[5, 3]] (some 5) 0 10) ∧
    bandFlat (maskBand [[5, 3]] (some 5)) =
      ([[5, 3]] : List (List ℚ)).flatten.filter (fun v => !(decide (v = 5))) :=
  ⟨(nodata_excluded [[5, 3]] 5 0 10).1 0 0 (by decide),
   (nodata_excluded [[5, 3]] 5 0 10).2⟩

/-- C4: a degenerate range (`value_min > value_max`) matches zero cells;
the run returns the explicit empty-result signal instead of an error, and
the histogram array is still computed from the masked band. -/
theorem degenerate_range_empty {Name : Type} [LinearOrder Name] (pm : PointMap)
    (its : Ring → Ring → Bool) (raster : Raster) (world : WorldSet Name)
    (vmin vmax : ℚ) (h : vmax < vmin) :
    runPipeline pm its raster world vmin vmax =
      ⟨bandFlat (maskBand raster.band raster.nodata), Except.ok PipeResult.empty⟩ := by
  rw [runPipeline]
  simp [matchGrid_nil_of_gt h]

/-- C4 witness: the concrete degenerate range `[100, 0]` on `rasterOne`
yields the empty signal with the histogram still present. -/
theorem degenerate_range_empty_witness :
    runPipeline pmId bboxIntersects rasterOne worldAB 100 0 =
      ⟨bandFlat (maskBand rasterOne.band rasterOne.nodata), Except.ok PipeResult.empty⟩ :=
  degenerate_range_empty pmId bboxIntersects rasterOne worldAB 100 0 (by norm_num)

theorem mem_sjoinWorld_iff {Name : Type} (its : Ring → Ring → Bool) (g : Ring) (a : ℚ)
    (i0 : ℕ) :
    ∀ (j0 : ℕ) (ws : List (CountryRow Name)) (r : JoinedRow Name),
      r ∈ sjoinWorld its g a i0 j0 ws ↔
        (r.pixIdx = i0 ∧ r.pixel_area_km2 = a ∧ j0 ≤ r.worldIdx ∧
          ∃ w, ws.get? (r.worldIdx - j0) = some w ∧ r.admin = w.admin ∧
            its g w.geometry = true) := by
  intro j0 ws
  induction ws generalizing j0 with
  | nil =>
      intro r
      simp [sjoinWorld]
  | cons w ws ih =>
      rintro ⟨rp, ra, rj, rn⟩
      rw [sjoinWorld, List.mem_append]
      constructor
      · rintro (hr | hr)
        · by_cases hit : its g w.geometry = true
          · rw [if_pos hit] at hr
            have he := List.mem_singleton.mp hr
            rw [JoinedRow.mk.injEq] at he
            obtain ⟨rfl, rfl, rfl, rfl⟩ := he
            exact ⟨rfl, rfl, le_refl _, w, by simp, rfl, hit⟩
          · rw [if_neg hit] at hr
            simp at hr
        · obtain ⟨h1, h2, h3, w', hw', h4, h5⟩ := (ih (j0 + 1) ⟨rp, ra, rj, rn⟩).mp hr
          refine ⟨h1, h2, by simp at h3 ⊢; omega, w', ?_, h4, h5⟩
          simp only at h3 hw' ⊢
          have hs : rj - j0 = (rj - (j0 + 1)) + 1 := by omega
          rw [hs]
          simpa using hw'
      · rintro ⟨h1, h2, h3, w', hw', h4, h5⟩
        simp only at h1 h2 h3 hw' h4
        by_cases hj : rj = j0
        · subst hj
          rw [Nat.sub_self] at hw'
          have hw'' : w = w' := by simpa using hw'
          subst hw''
          left
          rw [if_pos h5]
          simp [JoinedRow.mk.injEq, h1, h2, h4]
        · right
          refine (ih (j0 + 1) ⟨rp, ra, rj, rn⟩).mpr ⟨h1, h2, by simp; omega, w', ?_, h4, h5⟩
          simp only
          have hs : rj - j0 = (rj - (j0 + 1)) + 1 := by omega
          rw [hs] at hw'
          simpa using hw'

theorem sjoinWorld_pixIdx {Name : Type} {its : Ring → Ring → Bool} {g : Ring} {a : ℚ}
    {i0 j0 : ℕ} {ws : List (CountryRow Name)} {r : JoinedRow Name}
    (hr : r ∈ sjoinWorld its g a i0 j0 ws) : r.pixIdx = i0 :=
  ((mem_sjoinWorld_iff its g a i0 j0 ws r).mp hr).1

theorem mem_sjoinAux_iff {Name : Type} (its : Ring → Ring → Bool)
    (ws : List (CountryRow Name)) :
    ∀ (i0 : ℕ) (ps : List (Ring × ℚ)) (r : JoinedRow Name),
      r ∈ sjoinAux its i0 ps ws ↔
        (i0 ≤ r.pixIdx ∧ ∃ p, ps.get? (r.pixIdx - i0) = some p ∧
          r ∈ sjoinWorld its p.1 p.2 r.pixIdx 0 ws) := by
  intro i0 ps
  induction ps generalizing i0 with
  | nil => intro r; simp [sjoinAux]
  | cons p ps ih =>
      intro r
      rw [sjoinAux, List.mem_append]
      constructor
      · rintro (hr | hr)
        · have hpi := sjoinWorld_pixIdx hr
          refine ⟨le_of_eq hpi.symm, p, ?_, ?_⟩
          · rw [hpi, Nat.sub_self, List.get?_cons_zero]
          · rwa [hpi]
        · obtain ⟨h1, p', hp', hmem⟩ := (ih (i0 + 1) r).mp hr
          refine ⟨by omega, p', ?_, hmem⟩
          have hs : r.pixIdx - i0 = (r.pixIdx - (i0 + 1)) + 1 := by omega
          rw [hs, List.get?_cons_succ]
          exact hp'
      · rintro ⟨h1, p', hp', hmem⟩
        by_cases hi : r.pixIdx = i0
        · left
          rw [hi, Nat.sub_self, List.get?_cons_zero] at hp'
          have hpp : p = p' := by simpa using hp'
          subst hpp
          rwa [← hi]
        · right
          refine (ih (i0 + 1) r).mpr ⟨by omega, p', ?_, hmem⟩
          have hs : r.pixIdx - i0 = (r.pixIdx - (i0 + 1)) + 1 := by omega
          rw [hs, List.get?_cons_succ] at hp'
          exact hp'

theorem pairCount_sjoinWorld {Name : Type} (its : Ring → Ring → Bool) (g : Ring) (a : ℚ)
    (i0 : ℕ) :
    ∀ (j0 : ℕ) (ws : List (CountryRow Name)) (j : ℕ),
      pairCount (sjoinWorld its g a i0 j0 ws) i0 j =
        (match ws.get? (j - j0) with
         | none => 0
         | some w => if j0 ≤ j ∧ its g w.geometry = true then 1 else 0) := by
  intro j0 ws
  induction ws generalizing j0 with
  | nil => intro j; simp [sjoinWorld, pairCount]
  | cons w ws ih =>
      intro j
      rw [sjoinWorld, pairCount, List.countP_append]
      have htz : ∀ (j0' : ℕ), j < j0' → (sjoinWorld its g a i0 j0' ws).countP
          (fun r => decide (r.pixIdx = i0) && decide (r.worldIdx = j)) = 0 := by
        intro j0' hj'
        rw [List.countP_eq_zero]
        intro r hr
        obtain ⟨-, -, hle, -⟩ := (mem_sjoinWorld_iff its g a i0 j0' ws r).mp hr
        have hne : r.worldIdx ≠ j := by omega
        simp [hne]
      rcases Nat.lt_trichotomy j j0 with hlt | heq | hgt
      · have hh : (if its g w.geometry = true then
              [(⟨i0, a, j0, w.admin⟩ : JoinedRow Name)] else []).countP
            (fun r => decide (r.pixIdx = i0) && decide (r.worldIdx = j)) = 0 := by
          by_cases hit : its g w.geometry = true
          · rw [if_pos hit]
            have hne : j0 ≠ j := by omega
            simp [List.countP_cons, hne]
          · rw [if_neg hit]
            rfl
        rw [hh, htz (j0 + 1) (by omega)]
        have h1 : j - j0 = 0 := by omega
        rw [h1, List.get?_cons_zero]
        have hc : ¬ (j0 ≤ j ∧ its g w.geometry = true) := fun hc => by omega
        simp [hc]
      · subst heq
        rw [htz (j + 1) (by omega)]
        simp only [Nat.sub_self, List.get?_cons_zero]
        by_cases hit : its g w.geometry = true
        · rw [if_pos hit]
          simp [List.countP_cons, hit]
        · rw [if_neg hit]
          simp [hit]
      · have hh : (if its g w.geometry = true then
              [(⟨i0, a, j0, w.admin⟩ : JoinedRow Name)] else []).countP
            (fun r => decide (r.pixIdx = i0) && decide (r.worldIdx = j)) = 0 := by
          by_cases hit : its g w.geometry = true
          · rw [if_pos hit]
            have hne : j0 ≠ j := by omega
            simp [List.countP_cons, hne]
          · rw [if_neg hit]
            rfl
        rw [hh, Nat.zero_add]
        have htail := ih (j0 + 1) j
        rw [pairCount] at htail
        rw [htail]
        have hs : j - j0 = (j - (j0 + 1)) + 1 := by omega
        rw [hs, List.get?_cons_succ]
        cases hw' : ws.get? (j - (j0 + 1)) with
        | none => rfl
        | some w' =>
            have h1 : j0 + 1 ≤ j := by omega
            have h2 : j0 ≤ j := by omega
            by_cases hit : its g w'.geometry = true
            · simp [hit, h1, h2]
            · simp [hit]

theorem pairCount_sjoinWorld_ne {Name : Type} (its : Ring → Ring → Bool) (g : Ring)
    (a : ℚ) (i0 j0 : ℕ) (ws : List (CountryRow Name)) (i j : ℕ) (hne : i ≠ i0) :
    pairCount (sjoinWorld its g a i0 j0 ws) i j = 0 := by
  rw [pairCount, List.countP_eq_zero]
  intro r hr
  have hpi := sjoinWorld_pixIdx hr
  simp [hpi, Ne.symm hne]

theorem pairCount_sjoinAux {Name : Type} (its : Ring → Ring → Bool)
    (ws : List (CountryRow Name)) :
    ∀ (i0 : ℕ) (ps : List (Ring × ℚ)) (i j : ℕ),
      pairCount (sjoinAux its i0 ps ws) i j =
        (match ps.get? (i - i0) with
         | none => 0
         | some p => if i0 ≤ i then pairCount (sjoinWorld its p.1 p.2 i 0 ws) i j else 0) := by
  intro i0 ps
  induction ps generalizing i0 with
  | nil => intro i j; simp [sjoinAux, pairCount]
  | cons p ps ih =>
      intro i j
      rw [sjoinAux, pairCount, List.countP_append]
      rcases Nat.lt_trichotomy i i0 with hlt | heq | hgt
      · have hh := pairCount_sjoinWorld_ne its p.1 p.2 i0 0 ws i j (by omega)
        rw [pairCount] at hh
        rw [hh, Nat.zero_add]
        have htail := ih (i0 + 1) i j
        rw [pairCount] at htail
        rw [htail]
        have h1 : i - i0 = 0 := by omega
        have h2 : i - (i0 + 1) = 0 := by omega
        rw [h1, h2, List.get?_cons_zero]
        have hc1 : ¬ (i0 ≤ i) := by omega
        have hc2 : ¬ (i0 + 1 ≤ i) := by omega
        cases hp' : ps.get? 0 with
        | none => simp [hc1]
        | some p' => simp [hc1, hc2]
      · subst heq
        have htz : (sjoinAux its (i + 1) ps ws).countP
            (fun r => decide (r.pixIdx = i) && decide (r.worldIdx = j)) = 0 := by
          rw [List.countP_eq_zero]
          intro r hr
          obtain ⟨hle, -⟩ := (mem_sjoinAux_iff its ws (i + 1) ps r).mp hr
          have hne : r.pixIdx ≠ i := by omega
          simp [hne]
        rw [htz, Nat.add_zero, Nat.sub_self, List.get?_cons_zero]
        simp [pairCount]
      · have hh := pairCount_sjoinWorld_ne its p.1 p.2 i0 0 ws i j (by omega)
        rw [pairCount] at hh
        rw [hh, Nat.zero_add]
        have htail := ih (i0 + 1) i j
        rw [pairCount] at htail
        rw [htail]
        have hs : i - i0 = (i - (i0 + 1)) + 1 := by omega
        rw [hs, List.get?_cons_succ]
        have hc1 : i0 ≤ i := by omega
        have hc2 : i0 + 1 ≤ i := by omega
        cases hp' : ps.get? (i - (i0 + 1)) with
        | none => simp
        | some p' => simp [hc1, hc2]

theorem sjoin_pairCount {Name : Type} (its : Ring → Ring → Bool) (ps : List (Ring × ℚ))
    (ws : List (CountryRow Name)) (i j : ℕ) :
    pairCount (sjoin its ps ws) i j =
      (match ps.get? i, ws.get? j with
       | some p, some w => if its p.1 w.geometry = true then 1 else 0
       | _, _ => 0) := by
  rw [sjoin, pairCount_sjoinAux]
  simp only [Nat.sub_zero]
  cases hp : ps.get? i with
  | none => cases hw : ws.get? j <;> rfl
  | some p =>
      have hW := pairCount_sjoinWorld its p.1 p.2 i 0 ws j
      rw [pairCount] at hW
      cases hw : ws.get? j with
      | none =>
          simp only [Nat.sub_zero, hw] at hW
          simp [pairCount, hW]
      | some w =>
          simp only [Nat.sub_zero, hw] at hW
          by_cases hit : its p.1 w.geometry = true
          · simp only [hit, and_true, Nat.zero_le, if_true] at hW
            simp [pairCount, hW, hit]
          · simp only [hit, and_false, if_false] at hW
            simp [pairCount, hW, hit]

theorem mem_sjoin_iff {Name : Type} (its : Ring → Ring → Bool) (ps : List (Ring × ℚ))
    (ws : List (CountryRow Name)) (r : JoinedRow Name) :
    r ∈ sjoin its ps ws ↔
      ∃ p w, ps.get? r.pixIdx = some p ∧ ws.get? r.worldIdx = some w ∧
        r.pixel_area_km2 = p.2 ∧ r.admin = w.admin ∧ its p.1 w.geometry = true := by
  rw [sjoin, mem_sjoinAux_iff]
  constructor
  · rintro ⟨-, p, hp, hmem⟩
    rw [Nat.sub_zero] at hp
    obtain ⟨-, h2, -, w, hw, h4, h5⟩ := (mem_sjoinWorld_iff its p.1 p.2 r.pixIdx 0 ws r).mp hmem
    rw [Nat.sub_zero] at hw
    exact ⟨p, w, hp, hw, h2, h4, h5⟩
  · rintro ⟨p, w, hp, hw, h2, h4, h5⟩
    refine ⟨Nat.zero_le _, p, by rwa [Nat.sub_zero], ?_⟩
    exact (mem_sjoinWorld_iff its p.1 p.2 r.pixIdx 0 ws r).mpr
      ⟨rfl, h2, Nat.zero_le _, w, by rwa [Nat.sub_zero], h4, h5⟩

theorem insortKey_perm {Name : Type} [LinearOrder Name] (n : Name) (l : List Name) :
    (insortKey n l).Perm (n :: l) := by
  induction l with
  | nil => exact List.Perm.refl _
  | cons m ms ih =>
      rw [insortKey]
      by_cases h : n ≤ m
      · rw [if_pos h]
      · rw [if_neg h]
        exact (ih.cons m).trans (List.Perm.swap n m ms)

theorem sortKeys_perm {Name : Type} [LinearOrder Name] (l : List Name) :
    (sortKeys l).Perm l := by
  induction l with
  | nil => exact List.Perm.refl _
  | cons a l ih => exact (insortKey_perm a (sortKeys l)).trans (ih.cons a)

theorem groupby_admin_keys {Name : Type} [LinearOrder Name] (J : List (JoinedRow Name)) :
    (groupby_admin J).map (fun g => g.admin) =
      sortKeys ((J.map (fun r => r.admin)).dedup) := by
  rw [groupby_admin, List.map_map]
  exact List.map_id' _

theorem mem_groupby_admin {Name : Type} [LinearOrder Name] {J : List (JoinedRow Name)}
    {g : GroupedRow Name} :
    g ∈ groupby_admin J ↔ ∃ n, n ∈ J.map (fun r => r.admin) ∧
      g = ⟨n, (rowsFor J n).length, ((rowsFor J n).map (fun r => r.pixel_area_km2)).sum⟩ := by
  rw [groupby_admin, List.mem_map]
  constructor
  · rintro ⟨n, hn, rfl⟩
    exact ⟨n, by rwa [(sortKeys_perm _).mem_iff, List.mem_dedup] at hn, rfl⟩
  · rintro ⟨n, hn, rfl⟩
    exact ⟨n, by rwa [(sortKeys_perm _).mem_iff, List.mem_dedup], rfl⟩

theorem groupby_admin_nodup {Name : Type} [LinearOrder Name] (J : List (JoinedRow Name)) :
    ((groupby_admin J).map (fun g => g.admin)).Nodup := by
  rw [groupby_admin_keys]
  exact ((sortKeys_perm _).nodup_iff).mpr (List.nodup_dedup _)

theorem filter_eq_singleton_of_nodup {α β : Type} [DecidableEq β] (f : α → β) :
    ∀ (l : List α), (l.map f).Nodup → ∀ b ∈ l.map f,
      ∃ x, l.filter (fun y => decide (f y = b)) = [x] ∧ f x = b := by
  intro l
  induction l with
  | nil => simp
  | cons a l ih =>
      intro hN b hb
      rw [List.map_cons, List.nodup_cons] at hN
      rw [List.map_cons, List.mem_cons] at hb
      by_cases hab : f a = b
      · refine ⟨a, ?_, hab⟩
        rw [List.filter_cons, if_pos (by simp [hab])]
        have hnil : l.filter (fun y => decide (f y = b)) = [] := by
          rw [List.filter_eq_nil]
          intro y hy
          simp only [decide_eq_true_eq]
          intro hfy
          exact hN.1 (by rw [hab, ← hfy]; exact List.mem_map_of_mem f hy)
        rw [hnil]
      · rcases hb with hb | hb
        · exact absurd hb.symm hab
        · obtain ⟨x, hx, hfx⟩ := ih hN.2 b hb
          refine ⟨x, ?_, hfx⟩
          rw [List.filter_cons, if_neg (by simp [hab])]
          exact hx

theorem mergeCountryArea_admins {Name : Type} [DecidableEq Name]
    (grouped : List (GroupedRow Name)) (wsArea : List (CountryRow Name × ℚ))
    (hN : (wsArea.map (fun w => w.1.admin)).Nodup)
    (hsub : ∀ g ∈ grouped, g.admin ∈ wsArea.map (fun w => w.1.admin)) :
    (mergeCountryArea grouped wsArea).map (fun r => r.admin) =
      grouped.map (fun g => g.admin) := by
  induction grouped with
  | nil => rfl
  | cons g grouped ih =>
      obtain ⟨x, hx, -⟩ :=
        filter_eq_singleton_of_nodup (fun w => w.1.admin) wsArea hN g.admin
          (hsub g (List.mem_cons_self g grouped))
      rw [mergeCountryArea, List.flatMap_cons, List.map_append, hx]
      rw [← mergeCountryArea]
      rw [ih (fun g' hg' => hsub g' (List.mem_cons_of_mem g hg'))]
      simp

theorem mem_mergeCountryArea {Name : Type} [DecidableEq Name]
    {grouped : List (GroupedRow Name)} {wsArea : List (CountryRow Name × ℚ)}
    {r : SummaryRow Name} (hr : r ∈ mergeCountryArea grouped wsArea) :
    ∃ g ∈ grouped, r.admin = g.admin ∧ r.matched_pixels = g.matched_pixels ∧
      r.area_km2 = g.area_km2 ∧ r.percent_covered = none := by
  rw [mergeCountryArea, List.mem_flatMap] at hr
  obtain ⟨g, hg, hr⟩ := hr
  refine ⟨g, hg, ?_⟩
  rcases hflt : wsArea.filter (fun w => decide (w.1.admin = g.admin)) with - | ⟨m, ms⟩
  · rw [hflt] at hr
    have he := List.mem_singleton.mp hr
    subst he
    exact ⟨rfl, rfl, rfl, rfl⟩
  · rw [hflt, List.mem_map] at hr
    obtain ⟨w, -, he⟩ := hr
    subst he
    exact ⟨rfl, rfl, rfl, rfl⟩

theorem mergeCountryArea_admins_sub {Name : Type} [DecidableEq Name]
    {grouped : List (GroupedRow Name)} {wsArea : List (CountryRow Name × ℚ)}
    {r : SummaryRow Name} (hr : r ∈ mergeCountryArea grouped wsArea) :
    r.admin ∈ grouped.map (fun g => g.admin) := by
  obtain ⟨g, hg, h1, -⟩ := mem_mergeCountryArea hr
  rw [h1]
  exact List.mem_map_of_mem _ hg

theorem addDerivedCols_admins {Name : Type} (rows : List (SummaryRow Name)) :
    (addDerivedCols rows).map (fun r => r.admin) = rows.map (fun r => r.admin) := by
  rw [addDerivedCols, List.map_map]
  rfl

theorem mem_addDerivedCols {Name : Type} {rows : List (SummaryRow Name)}
    {r : SummaryRow Name} :
    r ∈ addDerivedCols rows ↔ ∃ r0 ∈ rows, r =
      { r0 with
        percent_covered := r0.country_area_km2.map (fun ca => roundTo 4 (100 * r0.area_km2 / ca))
        area_km2 := roundTo 2 r0.area_km2 } := by
  rw [addDerivedCols, List.mem_map]
  constructor
  · rintro ⟨r0, h0, rfl⟩
    exact ⟨r0, h0, rfl⟩
  · rintro ⟨r0, h0, rfl⟩
    exact ⟨r0, h0, rfl⟩

theorem runPipeline_result_eq {Name : Type} [LinearOrder Name] (pm : PointMap)
    (its : Ring → Ring → Bool) (raster : Raster) (world : WorldSet Name)
    (vmin vmax : ℚ) (s sw : CRS)
    (hrc : raster.crs = some s) (hwc : world.crs = some sw)
    (hm : matchedIndices' raster vmin vmax ≠ []) :
    (runPipeline pm its raster world vmin vmax).result =
      Except.ok (PipeResult.table (tableRowsOf pm its s sw raster world vmin vmax)) := by
  have hm' : ¬ ((matchGrid vmin vmax 0 (maskBand raster.band raster.nodata)).length = 0) := by
    rw [List.length_eq_zero]
    exact hm
  rw [runPipeline]
  simp only [if_neg hm', hrc, hwc, geoms_to_crs, world_to_crs, Except.bind, Except.map]
  rw [tableRowsOf, joinedOf, pixelsProjOf, worldProjOf, matchedIndices', matchedIndices]

theorem runPipeline_band_flat {Name : Type} [LinearOrder Name] (pm : PointMap)
    (its : Ring → Ring → Bool) (raster : Raster) (world : WorldSet Name)
    (vmin vmax : ℚ) :
    (runPipeline pm its raster world vmin vmax).band_flat =
      bandFlat (maskBand raster.band raster.nodata) := rfl

/-- C1: the spatial join emits exactly one independent row for every
(pixel, country) pair accepted by the `intersects` predicate — a pixel
intersecting several countries yields one row per country, never
deduplicated — and each such row carries the pixel's full area; the row is
among the rows of that country's `groupby` group, whose `matched_pixels`
counts every joined row and whose `area_km2` sums every row's full pixel
area. -/
theorem sjoin_overcount_policy {Name : Type} [LinearOrder Name]
    (its : Ring → Ring → Bool) (ps : List (Ring × ℚ)) (ws : List (CountryRow Name))
    (i j : ℕ) (p : Ring × ℚ) (w : CountryRow Name)
    (hp : ps.get? i = some p) (hw : ws.get? j = some w)
    (hits : its p.1 w.geometry = true) :
    pairCount (sjoin its ps ws) i j = 1 ∧
    (⟨i, p.2, j, w.admin⟩ : JoinedRow Name) ∈ sjoin its ps ws ∧
    (⟨i, p.2, j, w.admin⟩ : JoinedRow Name) ∈ rowsFor (sjoin its ps ws) w.admin ∧
    (⟨w.admin, (rowsFor (sjoin its ps ws) w.admin).length,
       ((rowsFor (sjoin its ps ws) w.admin).map (fun r => r.pixel_area_km2)).sum⟩ :
      GroupedRow Name) ∈ groupby_admin (sjoin its ps ws) := by
  have hmem : (⟨i, p.2, j, w.admin⟩ : JoinedRow Name) ∈ sjoin its ps ws :=
    (mem_sjoin_iff its ps ws _).mpr ⟨p, w, hp, hw, rfl, rfl, hits⟩
  have hcount : pairCount (sjoin its ps ws) i j = 1 := by
    rw [sjoin_pairCount, hp, hw]
    simp [hits]
  have hrows : (⟨i, p.2, j, w.admin⟩ : JoinedRow Name) ∈
      rowsFor (sjoin its ps ws) w.admin := by
    rw [rowsFor, List.mem_filter]
    exact ⟨hmem, by simp⟩
  have hgrp := mem_groupby_admin.mpr
    ⟨w.admin, List.mem_map.mpr ⟨⟨i, p.2, j, w.admin⟩, hmem, rfl⟩, rfl⟩
  exact ⟨hcount, hmem, hrows, hgrp⟩

/-- C1 witness: the matched pixel square `[0,1] × [-1,0]` straddles the
border between the two adjacent countries; against country `5` (index 1)
the join holds exactly one row, carrying the pixel's full area `1`. -/
theorem sjoin_overcount_policy_witness :
    pairCount (sjoin bboxIntersects psBorder wsBorder) 0 1 = 1 ∧
    (⟨0, 1, 1, 5⟩ : JoinedRow ℕ) ∈ sjoin bboxIntersects psBorder wsBorder :=
  ⟨(sjoin_overcount_policy bboxIntersects psBorder wsBorder 0 1 (box 0 (-1) 1 0, 1)
      countryB rfl rfl (by decide)).1,
   (sjoin_overcount_policy bboxIntersects psBorder wsBorder 0 1 (box 0 (-1) 1 0, 1)
      countryB rfl rfl (by decide)).2.1⟩

/-- C7 counterexample: the boundary set `worldNoCrs` declares no CRS, yet
with a value range matching zero cells the run does not fail — it returns
the empty-result signal, because the source short-circuits on
`matched_pixels == 0` (line 73) before ever calling `to_crs`
(lines 91-92).  This falsifies the claim that a missing CRS always fails
fast. -/
theorem missing_crs_cex :
    worldNoCrs.crs = none ∧
    (runPipeline pmId bboxIntersects rasterOne worldNoCrs 60 70).result =
      Except.ok PipeResult.empty := by
  constructor
  · rfl
  · decide

/-- C7 (amended): when at least one cell matches the value range, a
missing source CRS on either geometry set makes the run fail with the
reprojection configuration error before any joining or aggregation, and no
summary table is produced. -/
theorem missing_crs_fails {Name : Type} [LinearOrder Name] (pm : PointMap)
    (its : Ring → Ring → Bool) (raster : Raster) (world : WorldSet Name)
    (vmin vmax : ℚ) (hcrs : raster.crs = none ∨ world.crs = none)
    (hm : matchedIndices' raster vmin vmax ≠ []) :
    (runPipeline pm its raster world vmin vmax).result = Except.error naiveCrsError := by
  have hm' : ¬ ((matchGrid vmin vmax 0 (maskBand raster.band raster.nodata)).length = 0) := by
    rw [List.length_eq_zero]
    exact hm
  have hm2 : matchGrid vmin vmax 0 (maskBand raster.band raster.nodata) ≠ [] := hm
  rw [runPipeline]
  rcases hcrs with h | h
  · simp [if_neg hm', hm2, h, geoms_to_crs, Except.bind]
  · rcases hc : raster.crs with - | s
    · simp [if_neg hm', hm2, hc, geoms_to_crs, Except.bind]
    · simp [if_neg hm', hm2, hc, h, geoms_to_crs, world_to_crs, Except.bind, Except.map]

/-- C7 witness: one matching cell and a boundary set without a CRS make
the concrete run fail with the geopandas naive-geometry error. -/
theorem missing_crs_fails_witness :
    (runPipeline pmId bboxIntersects rasterOne worldNoCrs 0 100).result =
      Except.error naiveCrsError :=
  missing_crs_fails pmId bboxIntersects rasterOne worldNoCrs 0 100
    (Or.inr rfl) (by decide)

/-- C8: the pipeline is a pure function of the raster, the value range,
the boundary set and the two external collaborators, so two runs on equal
inputs return equal outputs — the same histogram array and the same
summary rows in the same order with equal counts, areas and percentages.
(In this functional model of the single-threaded source, determinism is
inherited from function application itself.) -/
theorem pipeline_deterministic {Name : Type} [LinearOrder Name]
    (pm pm' : PointMap) (its its' : Ring → Ring → Bool) (raster raster' : Raster)
    (world world' : WorldSet Name) (vmin vmin' vmax vmax' : ℚ)
    (h1 : pm = pm') (h2 : its = its') (h3 : raster = raster') (h4 : world = world')
    (h5 : vmin = vmin') (h6 : vmax = vmax') :
    runPipeline pm its raster world vmin vmax =
      runPipeline pm' its' raster' world' vmin' vmax' := by
  subst h1 h2 h3 h4 h5 h6
  rfl

/-- C8 witness: two runs on the concrete fixture agree. -/
theorem pipeline_deterministic_witness :
    runPipeline pmId bboxIntersects rasterOne worldAB 0 100 =
      runPipeline pmId bboxIntersects rasterOne worldAB 0 100 :=
  pipeline_deterministic pmId pmId bboxIntersects bboxIntersects rasterOne rasterOne
    worldAB worldAB 0 0 100 100 rfl rfl rfl rfl rfl rfl

/-- C9: one run leaves the session inputs — the raster (band, transform,
CRS, nodata) and the boundary set — exactly as they were: the masked band
(`np.where`, line 57), the reprojected copies (`to_crs`, lines 91-92) and
the country-area column written on the projected copy (line 107) are all
fresh derived objects, so re-invoking with a different value range after a
first run is the same as running on the original inputs. -/
theorem inputs_unmutated {Name : Type} [LinearOrder Name] (pm : PointMap)
    (its : Ring → Ring → Bool) (st : SessionState Name)
    (vmin vmax r1min r1max : ℚ) :
    (runPipelineSt pm its st vmin vmax).2 = st ∧
    runPipelineSt pm its (runPipelineSt pm its st r1min r1max).2 vmin vmax =
      runPipelineSt pm its st vmin vmax := by
  cases st
  exact ⟨rfl, rfl⟩

theorem addCountryAreaCol_admins {Name : Type} (ws : List (CountryRow Name)) :
    (addCountryAreaCol ws).map (fun w => w.1.admin) = ws.map (fun w => w.admin) := by
  rw [addCountryAreaCol, List.map_map]
  rfl

theorem worldProjOf_admins {Name : Type} (pm : PointMap) (sw : CRS)
    (world : WorldSet Name) :
    (worldProjOf pm sw world).map (fun w => w.admin) =
      world.rows.map (fun r => r.admin) := by
  rw [worldProjOf, List.map_map]
  rfl

theorem sjoin_admins_sub {Name : Type} {its : Ring → Ring → Bool}
    {ps : List (Ring × ℚ)} {ws : List (CountryRow Name)} {n : Name}
    (hn : n ∈ (sjoin its ps ws).map (fun r => r.admin)) :
    n ∈ ws.map (fun w => w.admin) := by
  obtain ⟨r, hr, rfl⟩ := List.mem_map.mp hn
  obtain ⟨p, w, -, hw, -, hadm, -⟩ := (mem_sjoin_iff its ps ws r).mp hr
  rw [hadm]
  exact List.mem_map_of_mem _ (List.get?_mem hw)

theorem ringArea_boxA : ringArea (box 0 (-1) 1 0) = 1 := by
  norm_num [ringArea, shoelace, box, List.rotate]

theorem ringArea_boxB : ringArea (box 1 (-1) 2 0) = 1 := by
  norm_num [ringArea, shoelace, box, List.rotate]

theorem pixelPolygon_tUnit : pixelPolygon tUnit (0, 0) = box 0 (-1) 1 0 := by
  norm_num [pixelPolygon, Affine.xy, tUnit, box]

theorem projRing_pmId (s t : CRS) (g : Ring) : projRing pmId s t g = g := by
  rw [projRing]
  exact List.map_id' g

theorem pixelsProjOf_eval : pixelsProjOf pmId 4326 rasterOne 0 100 = [box 0 (-1) 1 0] := by
  have hmat : matchedIndices' rasterOne 0 100 = [(0, 0)] := by decide
  rw [pixelsProjOf, hmat, List.map_cons, List.map_nil,
    show rasterOne.transform = tUnit from rfl, pixelPolygon_tUnit,
    List.map_cons, List.map_nil, projRing_pmId]

theorem pixelAreaCol_eval :
    pixelAreaCol [box 0 (-1) 1 0] = [(box 0 (-1) 1 0, 1 / 1000000)] := by
  simp [pixelAreaCol, ringArea_boxA]

theorem worldProjOf_pmId {Name : Type} (sw : CRS) (world : WorldSet Name) :
    worldProjOf pmId sw world = world.rows := by
  rw [worldProjOf]
  have he : ∀ r : CountryRow Name,
      (⟨r.admin, projRing pmId sw equal_area_crs r.geometry⟩ : CountryRow Name) = r := by
    intro r
    cases r
    simp [projRing_pmId]
  simp [he]

theorem joined_dup_eval :
    joinedOf pmId bboxIntersects 4326 4326 rasterOne worldDup 0 100 =
      [⟨0, 1 / 1000000, 0, 7⟩, ⟨0, 1 / 1000000, 1, 7⟩] := by
  rw [joinedOf, pixelsProjOf_eval, pixelAreaCol_eval, worldProjOf_pmId]
  have hits : bboxIntersects (box 0 (-1) 1 0) (box 0 (-1) 1 0) = true := by decide
  simp [worldDup, sjoin, sjoinAux, sjoinWorld, hits]

theorem summary_dup_admin_eval :
    summaryAdmins (runPipeline pmId bboxIntersects rasterOne worldDup 0 100) = [7, 7] := by
  have h1 := runPipeline_result_eq pmId bboxIntersects rasterOne worldDup 0 100 4326 4326
    rfl rfl (by decide)
  rw [summaryAdmins, h1]
  rw [tableRowsOf, joined_dup_eval, worldProjOf_pmId]
  simp [groupby_admin, rowsFor, sortKeys, insortKey, mergeCountryArea,
    addCountryAreaCol, addDerivedCols, worldDup]

/-- C2 counterexample: on a boundary set whose two polygon rows share the
admin name `7`, the left merge on source line 108 duplicates the single
`groupby` row, so the summary table holds two rows for the same country
name — not "exactly one row per distinct country name". -/
theorem summary_dup_admin_cex :
    ¬ (summaryAdmins (runPipeline pmId bboxIntersects rasterOne worldDup 0 100)).Nodup := by
  have hadm : summaryAdmins (runPipeline pmId bboxIntersects rasterOne worldDup 0 100) =
      [7, 7] := summary_dup_admin_eval
  rw [hadm]
  decide

/-- C2 (amended): provided the boundary set's admin names are pairwise
distinct (as in the Natural Earth dataset the source loads), the summary
table has exactly one row per distinct country name with at least one
joined matched pixel: the row names are duplicate-free, a name appears iff
some matched pixel intersects that country's polygon (so a pixel
intersecting zero countries contributes to no row), and every emitted row
has a positive pixel count (no zero-valued rows for unmatched
countries). -/
theorem summary_row_per_country {Name : Type} [LinearOrder Name] (pm : PointMap)
    (its : Ring → Ring → Bool) (raster : Raster) (world : WorldSet Name)
    (vmin vmax : ℚ) (s sw : CRS)
    (hrc : raster.crs = some s) (hwc : world.crs = some sw)
    (hN : (world.rows.map (fun r => r.admin)).Nodup)
    (hm : matchedIndices' raster vmin vmax ≠ []) :
    (runPipeline pm its raster world vmin vmax).result =
      Except.ok (PipeResult.table (tableRowsOf pm its s sw raster world vmin vmax)) ∧
    ((tableRowsOf pm its s sw raster world vmin vmax).map (fun r => r.admin)).Nodup ∧
    (∀ n, n ∈ (tableRowsOf pm its s sw raster world vmin vmax).map (fun r => r.admin) ↔
      ∃ r ∈ joinedOf pm its s sw raster world vmin vmax, r.admin = n) ∧
    (∀ n, n ∈ (tableRowsOf pm its s sw raster world vmin vmax).map (fun r => r.admin) ↔
      ∃ i p, (pixelAreaCol (pixelsProjOf pm s raster vmin vmax)).get? i = some p ∧
        ∃ j w, (worldProjOf pm sw world).get? j = some w ∧ w.admin = n ∧
          its p.1 w.geometry = true) ∧
    (∀ row ∈ tableRowsOf pm its s sw raster world vmin vmax, 0 < row.matched_pixels) := by
  have hNws : ((addCountryAreaCol (worldProjOf pm sw world)).map
      (fun w => w.1.admin)).Nodup := by
    rw [addCountryAreaCol_admins, worldProjOf_admins]
    exact hN
  have hsub : ∀ g ∈ groupby_admin (joinedOf pm its s sw raster world vmin vmax),
      g.admin ∈ (addCountryAreaCol (worldProjOf pm sw world)).map (fun w => w.1.admin) := by
    intro g hg
    obtain ⟨n, hn, rfl⟩ := mem_groupby_admin.mp hg
    rw [addCountryAreaCol_admins]
    exact sjoin_admins_sub hn
  have hadm : (tableRowsOf pm its s sw raster world vmin vmax).map (fun r => r.admin) =
      (groupby_admin (joinedOf pm its s sw raster world vmin vmax)).map
        (fun g => g.admin) := by
    rw [tableRowsOf, addDerivedCols_admins]
    exact mergeCountryArea_admins _ _ hNws hsub
  have hmemJ : ∀ n, n ∈ (tableRowsOf pm its s sw raster world vmin vmax).map
      (fun r => r.admin) ↔
      ∃ r ∈ joinedOf pm its s sw raster world vmin vmax, r.admin = n := by
    intro n
    rw [hadm, groupby_admin_keys, (sortKeys_perm _).mem_iff, List.mem_dedup]
    constructor
    · intro hn
      obtain ⟨r, hr, rfl⟩ := List.mem_map.mp hn
      exact ⟨r, hr, rfl⟩
    · rintro ⟨r, hr, rfl⟩
      exact List.mem_map_of_mem _ hr
  refine ⟨runPipeline_result_eq pm its raster world vmin vmax s sw hrc hwc hm,
    ?_, hmemJ, ?_, ?_⟩
  · rw [hadm]
    exact groupby_admin_nodup _
  · intro n
    rw [hmemJ n]
    constructor
    · rintro ⟨r, hr, rfl⟩
      obtain ⟨p, w, hp, hw, -, hadm2, hits⟩ :=
        (mem_sjoin_iff its _ _ r).mp hr
      exact ⟨r.pixIdx, p, hp, r.worldIdx, w, hw, hadm2.symm, hits⟩
    · rintro ⟨i, p, hp, j, w, hw, rfl, hits⟩
      refine ⟨⟨i, p.2, j, w.admin⟩, ?_, rfl⟩
      exact (mem_sjoin_iff its _ _ _).mpr ⟨p, w, hp, hw, rfl, rfl, hits⟩
  · intro row hrow
    obtain ⟨r0, h0, rfl⟩ := mem_addDerivedCols.mp (by rwa [tableRowsOf] at hrow)
    obtain ⟨g, hg, ha, hc, -, -⟩ := mem_mergeCountryArea h0
    obtain ⟨n, hn, rfl⟩ := mem_groupby_admin.mp hg
    simp only [hc]
    obtain ⟨r, hr, hradm⟩ := List.mem_map.mp hn
    have : r ∈ rowsFor (joinedOf pm its s sw raster world vmin vmax) n := by
      rw [rowsFor, List.mem_filter]
      exact ⟨hr, by simp [hradm]⟩
    have hlen := List.length_pos.mpr (List.ne_nil_of_mem this)
    exact hlen

/-- C2 witness: the two-country fixture has distinct names; the summary
of the concrete run has duplicate-free row names with positive counts. -/
theorem summary_row_per_country_witness :
    (runPipeline pmId bboxIntersects rasterOne worldAB 0 100).result =
      Except.ok (PipeResult.table
        (tableRowsOf pmId bboxIntersects 4326 4326 rasterOne worldAB 0 100)) ∧
    ((tableRowsOf pmId bboxIntersects 4326 4326 rasterOne worldAB 0 100).map
      (fun r => r.admin)).Nodup :=
  ⟨(summary_row_per_country pmId bboxIntersects rasterOne worldAB 0 100 4326 4326
      rfl rfl (by decide) (by decide)).1,
   (summary_row_per_country pmId bboxIntersects rasterOne worldAB 0 100 4326 4326
      rfl rfl (by decide) (by decide)).2.1⟩

/-- C6: in every summary row, `percent_covered` is the 4-digit rounding of
`100 ×` (the *unrounded* sum of the row's joined pixel areas) `÷` the
merged country area, while the displayed `area_km2` is the same unrounded
sum rounded to 2 digits — source line 109 computes the percentage before
line 110 overwrites the area column, so the 2-digit rounding never feeds
the percentage's numerator. -/
theorem rounding_discipline {Name : Type} [LinearOrder Name] (pm : PointMap)
    (its : Ring → Ring → Bool) (raster : Raster) (world : WorldSet Name)
    (vmin vmax : ℚ) (s sw : CRS)
    (hrc : raster.crs = some s) (hwc : world.crs = some sw)
    (hm : matchedIndices' raster vmin vmax ≠ []) :
    (runPipeline pm its raster world vmin vmax).result =
      Except.ok (PipeResult.table (tableRowsOf pm its s sw raster world vmin vmax)) ∧
    ∀ row ∈ tableRowsOf pm its s sw raster world vmin vmax,
      row.area_km2 = roundTo 2 (((rowsFor (joinedOf pm its s sw raster world vmin vmax)
          row.admin).map (fun r => r.pixel_area_km2)).sum) ∧
      row.percent_covered = row.country_area_km2.map (fun ca =>
        roundTo 4 (100 * ((rowsFor (joinedOf pm its s sw raster world vmin vmax)
          row.admin).map (fun r => r.pixel_area_km2)).sum / ca)) := by
  refine ⟨runPipeline_result_eq pm its raster world vmin vmax s sw hrc hwc hm, ?_⟩
  intro row hrow
  obtain ⟨r0, h0, rfl⟩ := mem_addDerivedCols.mp (by rwa [tableRowsOf] at hrow)
  obtain ⟨g, hg, hadm, -, harea, -⟩ := mem_mergeCountryArea h0
  obtain ⟨n, -, rfl⟩ := mem_groupby_admin.mp hg
  simp only at hadm harea
  constructor
  · simp only [hadm, harea]
  · simp only [hadm, harea]

theorem joined_AB_eval :
    joinedOf pmId bboxIntersects 4326 4326 rasterOne worldAB 0 100 =
      [⟨0, 1 / 1000000, 0, 3⟩, ⟨0, 1 / 1000000, 1, 5⟩] := by
  rw [joinedOf, pixelsProjOf_eval, pixelAreaCol_eval, worldProjOf_pmId]
  have h1 : bboxIntersects (box 0 (-1) 1 0) (box 0 (-1) 1 0) = true := by decide
  have h2 : bboxIntersects (box 0 (-1) 1 0) (box 1 (-1) 2 0) = true := by decide
  simp [worldAB, countryA, countryB, sjoin, sjoinAux, sjoinWorld, h1, h2]

theorem roundTo_small : roundTo 2 (1 / 1000000 : ℚ) = 0 := by
  rw [roundTo, roundHalfEven]
  have ha : (1 / 1000000 : ℚ) * 10 ^ 2 = 1 / 10000 := by norm_num
  rw [ha]
  have hfl : ⌊(1 / 10000 : ℚ)⌋ = 0 := by norm_num
  have hf : Int.fract (1 / 10000 : ℚ) = 1 / 10000 := by
    rw [Int.fract, hfl]
    norm_num
  rw [hf, if_pos (by norm_num : (1 / 10000 : ℚ) < 1 / 2), hfl]
  norm_num

theorem roundTo_hundred : roundTo 4 (100 : ℚ) = 100 := by
  rw [roundTo, roundHalfEven]
  have ha : (100 : ℚ) * 10 ^ 4 = 1000000 := by norm_num
  rw [ha]
  have hfl : ⌊(1000000 : ℚ)⌋ = 1000000 := by norm_num
  have hf : Int.fract (1000000 : ℚ) = 0 := by
    rw [Int.fract, hfl]
    norm_num
  rw [hf, if_pos (by norm_num : (0 : ℚ) < 1 / 2), hfl]
  norm_num

theorem table_AB_eval :
    tableRowsOf pmId bboxIntersects 4326 4326 rasterOne worldAB 0 100 =
      [⟨3, 1, 0, some (1 / 1000000), some 100⟩,
       ⟨5, 1, 0, some (1 / 1000000), some 100⟩] := by
  rw [tableRowsOf, joined_AB_eval, worldProjOf_pmId]
  norm_num [worldAB, countryA, countryB, groupby_admin, rowsFor, sortKeys, insortKey,
    mergeCountryArea, addCountryAreaCol, addDerivedCols, ringArea_boxA, ringArea_boxB,
    List.dedup, List.filter_cons, List.flatMap_cons, List.flatMap_nil,
    roundTo_small, roundTo_hundred]

/-- C6 witness: in the concrete two-country run, the row for country `3`
carries `area_km2 = roundTo 2` of the raw joined-area sum and
`percent_covered = roundTo 4` of `100 ×` that same unrounded sum over the
country area. -/
theorem rounding_discipline_witness :
    (⟨3, 1, 0, some (1 / 1000000), some 100⟩ : SummaryRow ℕ).area_km2 =
      roundTo 2 (((rowsFor (joinedOf pmId bboxIntersects 4326 4326 rasterOne worldAB 0 100)
        3).map (fun r => r.pixel_area_km2)).sum) ∧
    (⟨3, 1, 0, some (1 / 1000000), some 100⟩ : SummaryRow ℕ).percent_covered =
      (⟨3, 1, 0, some (1 / 1000000), some 100⟩ : SummaryRow ℕ).country_area_km2.map
        (fun ca => roundTo 4
          (100 * ((rowsFor (joinedOf pmId bboxIntersects 4326 4326 rasterOne worldAB 0 100)
            3).map (fun r => r.pixel_area_km2)).sum / ca)) :=
  (rounding_discipline pmId bboxIntersects rasterOne worldAB 0 100 4326 4326 rfl rfl
      (by decide)).2 ⟨3, 1, 0, some (1 / 1000000), some 100⟩
    (by rw [table_AB_eval]; exact List.mem_cons_self _ _)

end LayerAnalytics
